import Mathlib

/-!
# Verification of the bond pricing / total-return kernel

A shallow embedding of `src/services/bondMath.ts` (monotone cubic Hermite
curve interpolation, bond cash-flow scheduling and pricing, Newton–Raphson
yield solving, and total-return attribution), with theorems settling the
specification claims about it.

Numbers are modelled as real numbers (the idealisation of the source's
IEEE doubles); `Math.pow` with a real exponent is `Real.rpow`,
`Math.hypot` is `Real.sqrt` of the sum of squares, and `Math.ceil` is
`Int.ceil`.  The module-level interpolant cache in the source is keyed by
reference identity, which has no counterpart for value types; it is
modelled as transparent (every call rebuilds the spline from the curve,
which is what the cache is meant to make observationally equal to).
-/

namespace BondMath

noncomputable section

/-- `CurvePoint` from `types.ts`: a (tenor in years, rate in percent) pair. -/
structure CurvePoint where
  tenor : ℝ
  rate : ℝ

/-- `BondParameters` from `types.ts`.  The TypeScript field `frequency` has
type `CouponFrequency`, an enum whose only values are `1`, `2` and `4`;
here it is a real number, and theorems that depend on the enum carry the
hypothesis `frequency = 1 ∨ frequency = 2 ∨ frequency = 4`. -/
structure BondParameters where
  couponRate : ℝ
  maturityYears : ℝ
  frequency : ℝ
  faceValue : ℝ

/-- A single cash flow, `{t, amount}`, as tracked for the YTM solver. -/
structure CashFlow where
  t : ℝ
  amount : ℝ

/-- `BondResult` from `types.ts`. -/
structure BondResult where
  cleanPrice : ℝ
  dirtyPrice : ℝ
  accruedInterest : ℝ
  yieldToMaturity : ℝ
  duration : ℝ
  convexity : ℝ

/-- `TotalReturnResult` from `types.ts`, restricted to the fields the
attributor actually produces (the declared field `pullToParReturnComponent`
is never assigned by `calculateTotalReturn` in the source). -/
structure TotalReturnResult where
  startPriceDirty : ℝ
  endPriceDirty : ℝ
  couponIncome : ℝ
  reinvestmentIncome : ℝ
  totalReturnAbs : ℝ
  totalReturnAnnualized : ℝ
  priceReturnComponent : ℝ
  couponReturnComponent : ℝ
  reinvestmentReturnComponent : ℝ
  rolldownReturnComponent : ℝ
  durationReturnComponent : ℝ
  convexityShapeReturnComponent : ℝ

/-- JavaScript `Math.hypot(a, b)`. -/
def jsHypot (a b : ℝ) : ℝ := Real.sqrt (a ^ 2 + b ^ 2)

/-! ## MonotoneCubicSpline construction (`bondMath.ts` lines 13–56) -/

/-- The secants `ms[i] = (ys[i+1] - ys[i]) / (xs[i+1] - xs[i])`. -/
def secants (xs ys : List ℝ) : List ℝ :=
  (List.range (xs.length - 1)).map fun i =>
    (ys.getD (i + 1) 0 - ys.getD i 0) / (xs.getD (i + 1) 0 - xs.getD i 0)

/-- The raw tangents `ks`: interior points average the two adjacent
secants, endpoints take the one-sided secant. -/
def rawTangents (xs ys : List ℝ) : List ℝ :=
  let n := xs.length
  let ms := secants xs ys
  (List.range n).map fun i =>
    if i = 0 then ms.getD 0 0
    else if i = n - 1 then ms.getD (n - 2) 0
    else (ms.getD (i - 1) 0 + ms.getD i 0) / 2

/-- One iteration of the monotonicity-fixing loop, for interval `i`
(`bondMath.ts` lines 36–54).  `alpha` and `beta` are computed from the
tangents as they stand when the interval is processed; note the rescale
branch writes `alpha * (3/h) * m` using the pre-clamp `alpha`. -/
def fixPass (ms ks : List ℝ) (i : ℕ) : List ℝ :=
  let m := ms.getD i 0
  if m = 0 then
    (ks.set i 0).set (i + 1) 0
  else
    let alpha := ks.getD i 0 / m
    let beta := ks.getD (i + 1) 0 / m
    let ks1 := if alpha < 0 then ks.set i 0 else ks
    let ks2 := if beta < 0 then ks1.set (i + 1) 0 else ks1
    let h := jsHypot alpha beta
    if 3 < h then
      ((ks2.set i (alpha * (3 / h) * m)).set (i + 1) (beta * (3 / h) * m))
    else ks2

/-- The monotonicity-fixing loop applied to intervals `0, 1, …, j-1`,
in order (the source runs it for `i` from `0` to `n - 2`). -/
def fixTangents (ms ks : List ℝ) : ℕ → List ℝ
  | 0 => ks
  | j + 1 => fixPass ms (fixTangents ms ks j) j

/-- The corrected tangents of the spline over nodes `xs, ys`. -/
def splineKs (xs ys : List ℝ) : List ℝ :=
  fixTangents (secants xs ys) (rawTangents xs ys) (xs.length - 1)

/-- Cubic Hermite evaluation on interval `i` (`bondMath.ts` lines 77–89). -/
def hermite (xs ys ks : List ℝ) (i : ℕ) (x : ℝ) : ℝ :=
  let h := xs.getD (i + 1) 0 - xs.getD i 0
  let t := (x - xs.getD i 0) / h
  let t2 := t * t
  let t3 := t2 * t
  let h00 := 2 * t3 - 3 * t2 + 1
  let h10 := t3 - 2 * t2 + t
  let h01 := -2 * t3 + 3 * t2
  let h11 := t3 - t2
  h00 * ys.getD i 0 + h10 * h * ks.getD i 0 +
    h01 * ys.getD (i + 1) 0 + h11 * h * ks.getD (i + 1) 0

/-- The interval search (`bondMath.ts` lines 69–75): the first `j` with
`xs[j] ≤ x ≤ xs[j+1]`, scanning `j = 0, 1, …`; `i` stays `0` if no
interval matches.  `fuel` counts the remaining loop iterations. -/
def findIntervalGo (xs : List ℝ) (x : ℝ) : ℕ → ℕ → ℕ
  | 0, _ => 0
  | fuel + 1, j =>
    if xs.getD j 0 ≤ x ∧ x ≤ xs.getD (j + 1) 0 then j
    else findIntervalGo xs x fuel (j + 1)

def findInterval (xs : List ℝ) (x : ℝ) : ℕ :=
  findIntervalGo xs x (xs.length - 1) 0

/-- `MonotoneCubicSpline.at` (`bondMath.ts` lines 58–90): flat
extrapolation outside the node range, Hermite evaluation inside. -/
def splineAt (xs ys : List ℝ) (x : ℝ) : ℝ :=
  let n := xs.length
  if x ≤ xs.getD 0 0 then ys.getD 0 0
  else if xs.getD (n - 1) 0 ≤ x then ys.getD (n - 1) 0
  else hermite xs ys (splineKs xs ys) (findInterval xs x) x

/-- The curve sort performed before spline construction
(`bondMath.ts` line 99); the JavaScript comparator
`(a, b) => a.tenor - b.tenor` with the (stable) built-in sort. -/
def sortCurve (curve : List CurvePoint) : List CurvePoint :=
  curve.mergeSort fun a b => a.tenor ≤ b.tenor

/-- `interpolateRate` (`bondMath.ts` lines 95–109).  The identity-keyed
spline cache is semantically transparent and modelled as absent. -/
def interpolateRate (curve : List CurvePoint) (t : ℝ) : ℝ :=
  let sorted := sortCurve curve
  splineAt (sorted.map (·.tenor)) (sorted.map (·.rate)) t

/-! ## Yield solver (`bondMath.ts` lines 115–153) -/

/-- The Newton objective before subtracting the target:
`Σ CF·(1 + y/frequency)^(-t·frequency)` (real-exponent power). -/
def ytmPrice (cashFlows : List CashFlow) (frequency y : ℝ) : ℝ :=
  (cashFlows.map fun cf => cf.amount * (1 + y / frequency) ^ (-(cf.t * frequency))).sum

/-- The derivative accumulated by the solver:
`Σ -CF·t·(1 + y/frequency)^(-t·frequency - 1)`. -/
def ytmDeriv (cashFlows : List CashFlow) (frequency y : ℝ) : ℝ :=
  (cashFlows.map fun cf =>
    -(cf.amount * cf.t * (1 + y / frequency) ^ (-(cf.t * frequency) - 1))).sum

/-- One guarded Newton–Raphson update: return `y` unchanged when the
convergence test fires or the derivative is zero, otherwise take the
Newton step. -/
def newtonStep (cashFlows : List CashFlow) (targetPrice frequency y : ℝ) : ℝ :=
  let diff := ytmPrice cashFlows frequency y - targetPrice
  if |diff| < 1e-8 then y
  else if ytmDeriv cashFlows frequency y = 0 then y
  else y - diff / ytmDeriv cashFlows frequency y

/-- The solver loop with `fuel` iterations remaining: converged and
zero-derivative exits both return the current `y`, matching the early
`return y` and the `break` + final `return y` of the source. -/
def solveGo (cashFlows : List CashFlow) (targetPrice frequency : ℝ) : ℕ → ℝ → ℝ
  | 0, y => y
  | fuel + 1, y =>
    let diff := ytmPrice cashFlows frequency y - targetPrice
    if |diff| < 1e-8 then y
    else if ytmDeriv cashFlows frequency y = 0 then y
    else solveGo cashFlows targetPrice frequency fuel
      (y - diff / ytmDeriv cashFlows frequency y)

/-- `solveForYTM`: initial guess `0.05`, at most 20 iterations. -/
def solveForYTM (cashFlows : List CashFlow) (targetPrice frequency : ℝ) : ℝ :=
  solveGo cashFlows targetPrice frequency 20 0.05

/-! ## Bond pricing (`bondMath.ts` lines 158–238) -/

/-- The remaining cash-flow schedule of `calculateBondPrice`:
`periodsRemaining = ⌈remainingTTM · frequency⌉` flows at times
`timeToNextCoupon + i · periodLength`, each of `couponAmount`, with the
face value added on the final flow. -/
def bondCashFlows (bond : BondParameters) (settlementShift : ℝ) : List CashFlow :=
  let remainingTTM := bond.maturityYears - settlementShift
  let periodLength := 1 / bond.frequency
  let periodsRemaining : ℤ := ⌈remainingTTM * bond.frequency⌉
  let timeToNextCoupon := remainingTTM - ((periodsRemaining : ℝ) - 1) * periodLength
  let couponAmount := bond.couponRate / 100 * bond.faceValue / bond.frequency
  (List.range periodsRemaining.toNat).map fun i : ℕ =>
    ⟨timeToNextCoupon + (i : ℝ) * periodLength,
     couponAmount + if i = periodsRemaining.toNat - 1 then bond.faceValue else 0⟩

/-- The discount factor applied to a flow at time `t`: the zero rate is
read off the curve in percent and the flow is discounted with discrete
annual compounding, `(1 + r/100)^(-t)`. -/
def discountFactor (curve : List CurvePoint) (t : ℝ) : ℝ :=
  (1 + interpolateRate curve t / 100) ^ (-t)

/-- `calculateBondPrice` (`bondMath.ts` lines 158–238). -/
def calculateBondPrice (bond : BondParameters) (curve : List CurvePoint)
    (settlementShift : ℝ) : BondResult :=
  let remainingTTM := bond.maturityYears - settlementShift
  if remainingTTM ≤ 0 then
    { cleanPrice := bond.faceValue
      dirtyPrice := bond.faceValue
      accruedInterest := 0
      yieldToMaturity := 0
      duration := 0
      convexity := 0 }
  else
    let periodLength := 1 / bond.frequency
    let periodsRemaining : ℤ := ⌈remainingTTM * bond.frequency⌉
    let timeToNextCoupon := remainingTTM - ((periodsRemaining : ℝ) - 1) * periodLength
    let timeSinceLastCoupon := periodLength - timeToNextCoupon
    let couponAmount := bond.couponRate / 100 * bond.faceValue / bond.frequency
    let accruedInterest := timeSinceLastCoupon / periodLength * couponAmount
    let cashFlows := bondCashFlows bond settlementShift
    let dirtyPrice := (cashFlows.map fun cf => cf.amount * discountFactor curve cf.t).sum
    let macaulaySum := (cashFlows.map fun cf =>
      cf.t * (cf.amount * discountFactor curve cf.t)).sum
    let convexitySum := (cashFlows.map fun cf =>
      cf.t * (cf.t + 1) * (cf.amount * discountFactor curve cf.t)).sum
    let ytmRaw := solveForYTM cashFlows dirtyPrice bond.frequency
    { cleanPrice := dirtyPrice - accruedInterest
      dirtyPrice := dirtyPrice
      accruedInterest := accruedInterest
      yieldToMaturity := ytmRaw * 100
      duration := macaulaySum / dirtyPrice
      convexity := convexitySum / (dirtyPrice * (1 + ytmRaw / bond.frequency) ^ (2 : ℕ)) }

/-! ## Total return attribution (`bondMath.ts` lines 243–359) -/

/-- The full coupon schedule from issue: `⌈maturityYears · frequency⌉`
coupon times `firstCouponTime + i · periodLength`. -/
def couponTimes (bond : BondParameters) : List ℝ :=
  let periodLength := 1 / bond.frequency
  let periodsTotal : ℤ := ⌈bond.maturityYears * bond.frequency⌉
  let firstCouponTime := bond.maturityYears - ((periodsTotal : ℝ) - 1) * periodLength
  (List.range periodsTotal.toNat).map fun i : ℕ => firstCouponTime + (i : ℝ) * periodLength

/-- The dirty parallel-shift price of `calculateTotalReturn`
(`bondMath.ts` lines 294–309): the rolldown price when the bond is past
maturity at the horizon, otherwise the price at the horizon against
`curveT0` shifted everywhere by the rate change at the remaining
maturity. -/
def parallelShiftPrice (bond : BondParameters) (curveT0 curveT1 : List CurvePoint)
    (horizonYears : ℝ) : ℝ :=
  let priceRolldownDirty := (calculateBondPrice bond curveT0 horizonYears).dirtyPrice
  let remainingMaturity := bond.maturityYears - horizonYears
  if 0 < remainingMaturity then
    let shift := interpolateRate curveT1 remainingMaturity -
      interpolateRate curveT0 remainingMaturity
    (calculateBondPrice bond
      (curveT0.map fun p => ⟨p.tenor, p.rate + shift⟩) horizonYears).dirtyPrice
  else priceRolldownDirty

/-- `calculateTotalReturn` (`bondMath.ts` lines 243–359). -/
def calculateTotalReturn (bond : BondParameters) (curveT0 curveT1 : List CurvePoint)
    (horizonYears : ℝ) : TotalReturnResult :=
  let startPriceDirty := (calculateBondPrice bond curveT0 0).dirtyPrice
  let endPriceDirty := (calculateBondPrice bond curveT1 horizonYears).dirtyPrice
  let couponAmount := bond.couponRate / 100 * bond.faceValue / bond.frequency
  let paid := (couponTimes bond).filter fun t => 0 < t ∧ t ≤ horizonYears
  let totalCoupons := (paid.map fun _ => couponAmount).sum
  let reinvestmentIncome := (paid.map fun t =>
    if 0 < horizonYears - t then
      couponAmount * (1 + interpolateRate curveT1 (horizonYears - t) / 100) ^
        (horizonYears - t) - couponAmount
    else 0).sum
  let priceRolldownDirty := (calculateBondPrice bond curveT0 horizonYears).dirtyPrice
  let priceParallelDirty := parallelShiftPrice bond curveT0 curveT1 horizonYears
  let rolldownDiff := priceRolldownDirty - startPriceDirty
  let durationDiff := priceParallelDirty - priceRolldownDirty
  let shapeDiff := endPriceDirty - priceParallelDirty
  let totalValueT1 := endPriceDirty + totalCoupons + reinvestmentIncome
  let totalReturnAbs := (totalValueT1 - startPriceDirty) / startPriceDirty
  let totalReturnAnnualized :=
    if 1 < horizonYears then (1 + totalReturnAbs) ^ (1 / horizonYears) - 1
    else totalReturnAbs
  { startPriceDirty := startPriceDirty
    endPriceDirty := endPriceDirty
    couponIncome := totalCoupons
    reinvestmentIncome := reinvestmentIncome
    totalReturnAbs := totalReturnAbs * 100
    totalReturnAnnualized := totalReturnAnnualized * 100
    priceReturnComponent := (endPriceDirty - startPriceDirty) / startPriceDirty * 100
    couponReturnComponent := totalCoupons / startPriceDirty * 100
    reinvestmentReturnComponent := reinvestmentIncome / startPriceDirty * 100
    rolldownReturnComponent := rolldownDiff / startPriceDirty * 100
    durationReturnComponent := durationDiff / startPriceDirty * 100
    convexityShapeReturnComponent := shapeDiff / startPriceDirty * 100 }

end

/-! ## Helper lemmas -/

/-- Sums of a function mapped over `List.range` agree with `Finset.range`
sums. -/
theorem sum_map_range (f : ℕ → ℝ) (n : ℕ) :
    ((List.range n).map f).sum = ∑ i ∈ Finset.range n, f i := by
  induction n with
  | zero => simp
  | succ n ih =>
    rw [List.range_succ, List.map_append, List.sum_append, Finset.sum_range_succ, ih]
    simp

/-- The solver loop is the guarded Newton step iterated: converged or
zero-derivative states are fixed points of `newtonStep`, so stopping
early and exhausting the remaining fuel coincide. -/
theorem solveGo_eq_iterate (cashFlows : List CashFlow) (targetPrice frequency : ℝ) :
    ∀ (n : ℕ) (y : ℝ), solveGo cashFlows targetPrice frequency n y =
      (newtonStep cashFlows targetPrice frequency)^[n] y := by
  intro n
  induction n with
  | zero => intro y; rfl
  | succ n ih =>
    intro y
    by_cases h1 : |ytmPrice cashFlows frequency y - targetPrice| < 1e-8
    · have hfix : newtonStep cashFlows targetPrice frequency y = y := by
        simp only [newtonStep, if_pos h1]
      rw [Function.iterate_fixed hfix]
      simp only [solveGo, if_pos h1]
    · by_cases h2 : ytmDeriv cashFlows frequency y = 0
      · have hfix : newtonStep cashFlows targetPrice frequency y = y := by
          simp only [newtonStep, if_neg h1, if_pos h2]
        rw [Function.iterate_fixed hfix]
        simp only [solveGo, if_neg h1, if_pos h2]
      · have hstep : newtonStep cashFlows targetPrice frequency y =
            y - (ytmPrice cashFlows frequency y - targetPrice) /
              ytmDeriv cashFlows frequency y := by
          simp only [newtonStep, if_neg h1, if_neg h2]
        rw [Function.iterate_succ_apply, hstep]
        simp only [solveGo, if_neg h1, if_neg h2]
        exact ih _

/-! ## Claim theorems -/

/-- C1: for every bond, curve pair and horizon, the rolldown, duration and
convexity/shape components of `calculateTotalReturn` sum exactly to the
price-return component (the telescoping identity). -/
theorem totalReturn_decomposition_identity (bond : BondParameters)
    (curveT0 curveT1 : List CurvePoint) (horizonYears : ℝ) :
    (calculateTotalReturn bond curveT0 curveT1 horizonYears).rolldownReturnComponent
      + (calculateTotalReturn bond curveT0 curveT1 horizonYears).durationReturnComponent
      + (calculateTotalReturn bond curveT0 curveT1 horizonYears).convexityShapeReturnComponent
      = (calculateTotalReturn bond curveT0 curveT1 horizonYears).priceReturnComponent := by
  simp only [calculateTotalReturn]
  ring

/-- C3: when the remaining time to maturity is not positive,
`calculateBondPrice` returns the terminal record
`{cleanPrice := faceValue, dirtyPrice := faceValue, accruedInterest := 0,
yieldToMaturity := 0, duration := 0, convexity := 0}`. -/
theorem calculateBondPrice_matured (bond : BondParameters) (curve : List CurvePoint)
    (elapsedYears : ℝ) (h : bond.maturityYears - elapsedYears ≤ 0) :
    calculateBondPrice bond curve elapsedYears =
      { cleanPrice := bond.faceValue
        dirtyPrice := bond.faceValue
        accruedInterest := 0
        yieldToMaturity := 0
        duration := 0
        convexity := 0 } := by
  simp only [calculateBondPrice, if_pos h]

/-- Witness for C3 at the concrete input bond `(5%, 10y, semiannual, 100)`
priced 12 years after issue. -/
theorem calculateBondPrice_matured_witness :
    calculateBondPrice ⟨5, 10, 2, 100⟩ [⟨1, 4⟩, ⟨10, 5⟩] 12 =
      { cleanPrice := 100
        dirtyPrice := 100
        accruedInterest := 0
        yieldToMaturity := 0
        duration := 0
        convexity := 0 } :=
  calculateBondPrice_matured ⟨5, 10, 2, 100⟩ [⟨1, 4⟩, ⟨10, 5⟩] 12 (by norm_num)

/-- C4: the yield solver is total (it always returns a numeric yield):
it equals the guarded Newton step iterated 20 times from the initial
guess `0.05`, where the guarded step returns `y` unchanged as soon as
`|f(y)| < 1e-8`, returns `y` unchanged (best effort, no error) when the
derivative is exactly zero, and otherwise takes the Newton update. -/
theorem solveForYTM_newton_characterization (cashFlows : List CashFlow)
    (targetPrice frequency : ℝ) :
    solveForYTM cashFlows targetPrice frequency
        = (newtonStep cashFlows targetPrice frequency)^[20] 0.05
      ∧ (∀ y, |ytmPrice cashFlows frequency y - targetPrice| < 1e-8 →
          newtonStep cashFlows targetPrice frequency y = y)
      ∧ (∀ y, ytmDeriv cashFlows frequency y = 0 →
          newtonStep cashFlows targetPrice frequency y = y)
      ∧ (∀ y, ¬ |ytmPrice cashFlows frequency y - targetPrice| < 1e-8 →
          ytmDeriv cashFlows frequency y ≠ 0 →
          newtonStep cashFlows targetPrice frequency y =
            y - (ytmPrice cashFlows frequency y - targetPrice) /
              ytmDeriv cashFlows frequency y) := by
  refine ⟨solveGo_eq_iterate cashFlows targetPrice frequency 20 0.05, ?_, ?_, ?_⟩
  · intro y h1
    simp only [newtonStep, if_pos h1]
  · intro y h2
    by_cases h1 : |ytmPrice cashFlows frequency y - targetPrice| < 1e-8
    · simp only [newtonStep, if_pos h1]
    · simp only [newtonStep, if_neg h1, if_pos h2]
  · intro y h1 h2
    simp only [newtonStep, if_neg h1, if_neg h2]

/-- Witness for C4 on a concrete cash-flow list. -/
theorem solveForYTM_newton_characterization_witness :
    solveForYTM [] 0 1 = (newtonStep [] 0 1)^[20] 0.05 :=
  (solveForYTM_newton_characterization [] 0 1).1

/-- C2: for a bond with positive remaining time to maturity, the dirty
price is the sum over the scheduled cash flows of the flow amount times
`(1 + r/100)^(-t)`, with `r` the curve rate interpolated at the flow
time `t` (discrete annual compounding), and the clean price is the dirty
price minus the accrued interest. -/
theorem calculateBondPrice_dirty_clean (bond : BondParameters)
    (curve : List CurvePoint) (elapsedYears : ℝ)
    (h : 0 < bond.maturityYears - elapsedYears) :
    (calculateBondPrice bond curve elapsedYears).dirtyPrice =
      (∑ i ∈ Finset.range ⌈(bond.maturityYears - elapsedYears) * bond.frequency⌉.toNat,
        (bond.couponRate / 100 * bond.faceValue / bond.frequency +
          if i = ⌈(bond.maturityYears - elapsedYears) * bond.frequency⌉.toNat - 1
            then bond.faceValue else 0) *
          (1 + interpolateRate curve
              (bond.maturityYears - elapsedYears -
                ((⌈(bond.maturityYears - elapsedYears) * bond.frequency⌉ : ℝ) - 1) *
                  (1 / bond.frequency) + i * (1 / bond.frequency)) / 100) ^
            (-(bond.maturityYears - elapsedYears -
                ((⌈(bond.maturityYears - elapsedYears) * bond.frequency⌉ : ℝ) - 1) *
                  (1 / bond.frequency) + i * (1 / bond.frequency))))
      ∧ (calculateBondPrice bond curve elapsedYears).cleanPrice =
          (calculateBondPrice bond curve elapsedYears).dirtyPrice -
            (calculateBondPrice bond curve elapsedYears).accruedInterest := by
  have hne : ¬ bond.maturityYears - elapsedYears ≤ 0 := not_le.mpr h
  constructor
  · simp only [calculateBondPrice, if_neg hne, bondCashFlows, discountFactor,
      List.map_map, Function.comp_def]
    rw [sum_map_range]
  · simp only [calculateBondPrice, if_neg hne]

/-- Witness for C2 at a concrete bond and curve. -/
theorem calculateBondPrice_dirty_clean_witness :
    (calculateBondPrice ⟨5, 10, 2, 100⟩ [⟨1, 4⟩, ⟨10, 5⟩] 0).cleanPrice =
      (calculateBondPrice ⟨5, 10, 2, 100⟩ [⟨1, 4⟩, ⟨10, 5⟩] 0).dirtyPrice -
        (calculateBondPrice ⟨5, 10, 2, 100⟩ [⟨1, 4⟩, ⟨10, 5⟩] 0).accruedInterest :=
  (calculateBondPrice_dirty_clean ⟨5, 10, 2, 100⟩ [⟨1, 4⟩, ⟨10, 5⟩] 0 (by norm_num)).2


/-- C8: in `calculateTotalReturn`, the internal parallel-shift price (the
price whose differences against the rolldown and end prices form the
duration and shape components) equals the rolldown price when
`maturityYears - horizonYears ≤ 0`, and otherwise is the horizon price
against `curveT0` with every point's rate shifted by
`rate(curveT1, remainingMaturity) - rate(curveT0, remainingMaturity)`. -/
theorem totalReturn_parallel_shift (bond : BondParameters)
    (curveT0 curveT1 : List CurvePoint) (horizonYears : ℝ) :
    ∃ priceParallelDirty : ℝ,
      (calculateTotalReturn bond curveT0 curveT1 horizonYears).durationReturnComponent
          = (priceParallelDirty - (calculateBondPrice bond curveT0 horizonYears).dirtyPrice)
              / (calculateBondPrice bond curveT0 0).dirtyPrice * 100
      ∧ (calculateTotalReturn bond curveT0 curveT1 horizonYears).convexityShapeReturnComponent
          = ((calculateBondPrice bond curveT1 horizonYears).dirtyPrice - priceParallelDirty)
              / (calculateBondPrice bond curveT0 0).dirtyPrice * 100
      ∧ (bond.maturityYears - horizonYears ≤ 0 →
          priceParallelDirty = (calculateBondPrice bond curveT0 horizonYears).dirtyPrice)
      ∧ (0 < bond.maturityYears - horizonYears →
          priceParallelDirty =
            (calculateBondPrice bond
              (curveT0.map fun p => ⟨p.tenor, p.rate +
                (interpolateRate curveT1 (bond.maturityYears - horizonYears) -
                  interpolateRate curveT0 (bond.maturityYears - horizonYears))⟩)
              horizonYears).dirtyPrice) := by
  refine ⟨parallelShiftPrice bond curveT0 curveT1 horizonYears, ?_, ?_, ?_, ?_⟩
  · simp only [calculateTotalReturn]
  · simp only [calculateTotalReturn]
  · intro hm
    simp only [parallelShiftPrice, if_neg (not_lt.mpr hm)]
  · intro hm
    simp only [parallelShiftPrice, if_pos hm]

/-- Witness for C8 at a concrete bond, curve pair and horizon. -/
theorem totalReturn_parallel_shift_witness :
    ∃ priceParallelDirty : ℝ,
      (calculateTotalReturn ⟨5, 10, 2, 100⟩ [⟨1, 4⟩, ⟨10, 5⟩] [⟨1, 5⟩, ⟨10, 6⟩] 1).durationReturnComponent
          = (priceParallelDirty -
              (calculateBondPrice ⟨5, 10, 2, 100⟩ [⟨1, 4⟩, ⟨10, 5⟩] 1).dirtyPrice)
              / (calculateBondPrice ⟨5, 10, 2, 100⟩ [⟨1, 4⟩, ⟨10, 5⟩] 0).dirtyPrice * 100
      ∧ (calculateTotalReturn ⟨5, 10, 2, 100⟩ [⟨1, 4⟩, ⟨10, 5⟩] [⟨1, 5⟩, ⟨10, 6⟩] 1).convexityShapeReturnComponent
          = ((calculateBondPrice ⟨5, 10, 2, 100⟩ [⟨1, 5⟩, ⟨10, 6⟩] 1).dirtyPrice - priceParallelDirty)
              / (calculateBondPrice ⟨5, 10, 2, 100⟩ [⟨1, 4⟩, ⟨10, 5⟩] 0).dirtyPrice * 100
      ∧ ((10 : ℝ) - 1 ≤ 0 →
          priceParallelDirty = (calculateBondPrice ⟨5, 10, 2, 100⟩ [⟨1, 4⟩, ⟨10, 5⟩] 1).dirtyPrice)
      ∧ ((0 : ℝ) < 10 - 1 →
          priceParallelDirty =
            (calculateBondPrice ⟨5, 10, 2, 100⟩
              (List.map (fun p : CurvePoint => (⟨p.tenor, p.rate +
                (interpolateRate [⟨1, 5⟩, ⟨10, 6⟩] ((10 : ℝ) - 1) -
                  interpolateRate [⟨1, 4⟩, ⟨10, 5⟩] ((10 : ℝ) - 1))⟩ : CurvePoint))
                ([⟨1, 4⟩, ⟨10, 5⟩] : List CurvePoint))
              1).dirtyPrice) :=
  totalReturn_parallel_shift ⟨5, 10, 2, 100⟩ [⟨1, 4⟩, ⟨10, 5⟩] [⟨1, 5⟩, ⟨10, 6⟩] 1


/-- C9 counterexample: the claimed strict bound
`accruedInterest < couponAmount` fails for a zero-coupon-rate bond
(couponRate = 0 satisfies the claim's `couponRate >= 0`), where both the
accrued interest and the coupon amount are zero. -/
theorem accruedInterest_bound_counterexample :
    ((⟨0, 1, 1, 100⟩ : BondParameters).frequency = 1 ∨
        (⟨0, 1, 1, 100⟩ : BondParameters).frequency = 2 ∨
        (⟨0, 1, 1, 100⟩ : BondParameters).frequency = 4)
    ∧ 0 < (⟨0, 1, 1, 100⟩ : BondParameters).faceValue
    ∧ 0 ≤ (⟨0, 1, 1, 100⟩ : BondParameters).couponRate
    ∧ 0 < (⟨0, 1, 1, 100⟩ : BondParameters).maturityYears - 0
    ∧ ¬ ((calculateBondPrice ⟨0, 1, 1, 100⟩ [⟨1, 4⟩, ⟨10, 5⟩] 0).accruedInterest <
          (⟨0, 1, 1, 100⟩ : BondParameters).couponRate / 100 *
            (⟨0, 1, 1, 100⟩ : BondParameters).faceValue /
            (⟨0, 1, 1, 100⟩ : BondParameters).frequency) := by
  refine ⟨Or.inl rfl, by norm_num, by norm_num, by norm_num, ?_⟩
  have hAI : (calculateBondPrice ⟨0, 1, 1, 100⟩ [⟨1, 4⟩, ⟨10, 5⟩] 0).accruedInterest = 0 := by
    simp only [calculateBondPrice]
    rw [if_neg (by norm_num)]
    norm_num
  rw [hAI]
  norm_num

/-- C9 (amended): for frequency in {1,2,4}, positive face value, strictly
positive coupon rate and positive remaining maturity, the accrued interest
satisfies `0 ≤ accruedInterest < couponAmount` (the consequence of
`periodsRemaining = ceil(remaining * frequency)`). -/
theorem accruedInterest_strict_bound (bond : BondParameters) (curve : List CurvePoint)
    (elapsedYears : ℝ)
    (hf : bond.frequency = 1 ∨ bond.frequency = 2 ∨ bond.frequency = 4)
    (hfv : 0 < bond.faceValue) (hc : 0 < bond.couponRate)
    (h : 0 < bond.maturityYears - elapsedYears) :
    0 ≤ (calculateBondPrice bond curve elapsedYears).accruedInterest ∧
      (calculateBondPrice bond curve elapsedYears).accruedInterest <
        bond.couponRate / 100 * bond.faceValue / bond.frequency := by
  have hf0 : 0 < bond.frequency := by rcases hf with h' | h' | h' <;> rw [h'] <;> norm_num
  set r := bond.maturityYears - elapsedYears with hr
  set f := bond.frequency with hfdef
  have hAI : (calculateBondPrice bond curve elapsedYears).accruedInterest =
      (1 / f - (r - ((⌈r * f⌉ : ℝ) - 1) * (1 / f))) / (1 / f) *
        (bond.couponRate / 100 * bond.faceValue / f) := by
    simp only [calculateBondPrice, if_neg (not_le.mpr h)]
  rw [hAI]
  have h1f : (0 : ℝ) < 1 / f := by positivity
  have hceil1 : (⌈r * f⌉ : ℝ) < r * f + 1 := Int.ceil_lt_add_one (r * f)
  have hceil2 : r * f ≤ (⌈r * f⌉ : ℝ) := Int.le_ceil (r * f)
  set ttn := r - ((⌈r * f⌉ : ℝ) - 1) * (1 / f) with httn
  have hrf : r * f * (1 / f) = r := by field_simp
  have httn_pos : 0 < ttn := by
    have h2 : ((⌈r * f⌉ : ℝ) - 1) * (1 / f) < r * f * (1 / f) :=
      mul_lt_mul_of_pos_right (by linarith) h1f
    rw [httn]
    linarith [h2, hrf]
  have httn_le : ttn ≤ 1 / f := by
    have h2 : r * f * (1 / f) ≤ (⌈r * f⌉ : ℝ) * (1 / f) :=
      mul_le_mul_of_nonneg_right hceil2 h1f.le
    have h4 : ((⌈r * f⌉ : ℝ) - 1) * (1 / f) = (⌈r * f⌉ : ℝ) * (1 / f) - 1 / f := by ring
    rw [httn]
    linarith [h2, hrf, h4]
  clear_value ttn
  have hcA : 0 < bond.couponRate / 100 * bond.faceValue / f := by positivity
  have hu0 : 0 ≤ (1 / f - ttn) / (1 / f) := div_nonneg (by linarith) h1f.le
  have hu1 : (1 / f - ttn) / (1 / f) < 1 := (div_lt_one h1f).mpr (by linarith)
  exact ⟨mul_nonneg hu0 hcA.le, mul_lt_of_lt_one_left hcA hu1⟩

/-- Witness for the amended C9 at a concrete bond. -/
theorem accruedInterest_strict_bound_witness :
    0 ≤ (calculateBondPrice ⟨5, 10, 2, 100⟩ [⟨1, 4⟩, ⟨10, 5⟩] 0).accruedInterest :=
  (accruedInterest_strict_bound ⟨5, 10, 2, 100⟩ [⟨1, 4⟩, ⟨10, 5⟩] 0
    (Or.inr (Or.inl rfl)) (by norm_num) (by norm_num) (by norm_num)).1


/-- C10: for a bond (frequency in {1,2,4}) with positive remaining time to
maturity, the generated cash-flow times are strictly increasing, the final
flow falls exactly at the remaining time to maturity and carries
`couponAmount + faceValue`, and every earlier flow carries exactly
`couponAmount` (no face value). -/
theorem bondCashFlows_schedule (bond : BondParameters) (elapsedYears : ℝ)
    (hf : bond.frequency = 1 ∨ bond.frequency = 2 ∨ bond.frequency = 4)
    (h : 0 < bond.maturityYears - elapsedYears) :
    (bondCashFlows bond elapsedYears).Pairwise (fun a b => a.t < b.t)
    ∧ (bondCashFlows bond elapsedYears).getLast? = some
        ⟨bond.maturityYears - elapsedYears,
         bond.couponRate / 100 * bond.faceValue / bond.frequency + bond.faceValue⟩
    ∧ (∀ j, j + 1 < (bondCashFlows bond elapsedYears).length →
        ((bondCashFlows bond elapsedYears).getD j ⟨0, 0⟩).amount =
          bond.couponRate / 100 * bond.faceValue / bond.frequency) := by
  have hf0 : 0 < bond.frequency := by rcases hf with h' | h' | h' <;> rw [h'] <;> norm_num
  have hpl : 0 < 1 / bond.frequency := by positivity
  have hNpos : 0 < ⌈(bond.maturityYears - elapsedYears) * bond.frequency⌉ :=
    Int.ceil_pos.mpr (mul_pos h hf0)
  have hM : 1 ≤ ⌈(bond.maturityYears - elapsedYears) * bond.frequency⌉.toNat := by omega
  have hcast : ((⌈(bond.maturityYears - elapsedYears) * bond.frequency⌉.toNat : ℕ) : ℝ) =
      ((⌈(bond.maturityYears - elapsedYears) * bond.frequency⌉ : ℤ) : ℝ) := by
    exact_mod_cast congrArg (fun z : ℤ => (z : ℝ)) (Int.toNat_of_nonneg (le_of_lt hNpos))
  refine ⟨?_, ?_, ?_⟩
  · rw [bondCashFlows, List.pairwise_map]
    refine (List.pairwise_lt_range _).imp ?_
    intro a b hab
    have : (a : ℝ) < b := Nat.cast_lt.mpr hab
    have := mul_lt_mul_of_pos_right this hpl
    simp only
    linarith
  · obtain ⟨m, hm⟩ : ∃ m, ⌈(bond.maturityYears - elapsedYears) * bond.frequency⌉.toNat = m + 1 :=
      ⟨_ - 1, (Nat.succ_pred_eq_of_pos hM).symm⟩
    have hmr : ((m : ℕ) : ℝ) =
        ((⌈(bond.maturityYears - elapsedYears) * bond.frequency⌉ : ℤ) : ℝ) - 1 := by
      rw [← hcast, hm]
      push_cast
      ring
    rw [bondCashFlows]
    simp only [hm]
    rw [List.range_succ]
    simp only [List.map_append, List.map_cons, List.map_nil, List.getLast?_concat]
    refine congrArg some ?_
    simp only [CashFlow.mk.injEq, if_pos (show m = m + 1 - 1 by omega)]
    constructor
    · rw [hmr]; ring
    · trivial
  · intro j hj
    rw [bondCashFlows] at hj ⊢
    simp only [List.length_map, List.length_range] at hj
    rw [List.getD_eq_getElem _ _ (by simpa using by omega)]
    rw [List.getElem_map]
    simp only [List.getElem_range]
    rw [if_neg (by omega)]
    ring

/-- Witness for C10 at a concrete bond. -/
theorem bondCashFlows_schedule_witness :
    (bondCashFlows ⟨5, 10, 2, 100⟩ 0).getLast? =
      some ⟨(10 : ℝ) - 0, (5 : ℝ) / 100 * 100 / 2 + 100⟩ :=
  (bondCashFlows_schedule ⟨5, 10, 2, 100⟩ 0 (Or.inr (Or.inl rfl)) (by norm_num)).2.1


/-- The sorted curve is a permutation of the input curve. -/
theorem sortCurve_perm (curve : List CurvePoint) : List.Perm (sortCurve curve) curve :=
  List.mergeSort_perm curve _

/-- The sorted curve is sorted by non-decreasing tenor. -/
theorem sortCurve_sorted (curve : List CurvePoint) :
    (sortCurve curve).Pairwise fun a b => a.tenor ≤ b.tenor := by
  have h := @List.sorted_mergeSort CurvePoint
    (fun a b => decide (a.tenor ≤ b.tenor))
    (fun a b c hab hbc => by
      simp only [decide_eq_true_eq] at hab hbc ⊢
      exact le_trans hab hbc)
    (fun a b => by
      simp only [Bool.or_eq_true, decide_eq_true_eq]
      exact le_total a.tenor b.tenor)
    curve
  exact h.imp (by simp only [decide_eq_true_eq]; exact fun h' => h')

/-- Sorting a tenor-sorted curve changes nothing. -/
theorem sortCurve_eq_self {curve : List CurvePoint}
    (h : curve.Pairwise fun a b => a.tenor ≤ b.tenor) : sortCurve curve = curve :=
  List.mergeSort_of_sorted (h.imp fun h' => decide_eq_true h')

/-- C5: flat extrapolation.  For a curve with at least two points,
whenever `t` is at or below every tenor the interpolated rate is the rate
of a smallest-tenor point, and whenever `t` is at or above every tenor it
is the rate of a largest-tenor point (never a linear projection). -/
theorem interpolateRate_flat_extrapolation (curve : List CurvePoint) (t : ℝ)
    (hn : 2 ≤ curve.length) :
    ((∀ p ∈ curve, t ≤ p.tenor) →
      ∃ p ∈ curve, (∀ q ∈ curve, p.tenor ≤ q.tenor) ∧ interpolateRate curve t = p.rate)
    ∧ ((∀ p ∈ curve, p.tenor ≤ t) →
      ∃ p ∈ curve, (∀ q ∈ curve, q.tenor ≤ p.tenor) ∧ interpolateRate curve t = p.rate) := by
  have hperm := sortCurve_perm curve
  have hsorted := sortCurve_sorted curve
  have hlen : (sortCurve curve).length = curve.length := hperm.length_eq
  have hpos : 0 < (sortCurve curve).length := by omega
  have hlast : (sortCurve curve).length - 1 < (sortCurve curve).length := by omega
  set S := sortCurve curve with hS
  set P := S[0] with hP
  set Q := S[S.length - 1] with hQ
  have hPmem : P ∈ curve := hperm.mem_iff.mp (by exact List.getElem_mem hpos)
  have hQmem : Q ∈ curve := hperm.mem_iff.mp (by exact List.getElem_mem hlast)
  have hPmin : ∀ q ∈ curve, P.tenor ≤ q.tenor := by
    intro q hq
    obtain ⟨i, hi, rfl⟩ := List.mem_iff_getElem.mp (hperm.mem_iff.mpr hq)
    rcases Nat.eq_zero_or_pos i with h0 | h0
    · subst h0; exact le_refl _
    · exact (List.pairwise_iff_getElem.mp hsorted 0 i hpos hi h0)
  have hQmax : ∀ q ∈ curve, q.tenor ≤ Q.tenor := by
    intro q hq
    obtain ⟨i, hi, rfl⟩ := List.mem_iff_getElem.mp (hperm.mem_iff.mpr hq)
    rcases Nat.lt_or_ge i (S.length - 1) with h0 | h0
    · exact (List.pairwise_iff_getElem.mp hsorted i (S.length - 1) hi hlast h0)
    · have : i = S.length - 1 := by omega
      subst this; exact le_refl _
  have hxs0 : (S.map (·.tenor)).getD 0 0 = P.tenor := by
    rw [List.getD_eq_getElem _ _ (by simpa using hpos), List.getElem_map]
  have hys0 : (S.map (·.rate)).getD 0 0 = P.rate := by
    rw [List.getD_eq_getElem _ _ (by simpa using hpos), List.getElem_map]
  have hxsn : (S.map (·.tenor)).getD ((S.map (·.tenor)).length - 1) 0 = Q.tenor := by
    rw [List.getD_eq_getElem _ _ (by simpa using hlast), List.getElem_map]
    simp only [List.length_map]
  have hysn : (S.map (·.rate)).getD ((S.map (·.tenor)).length - 1) 0 = Q.rate := by
    rw [List.getD_eq_getElem _ _ (by simpa using hlast), List.getElem_map]
    simp only [List.length_map]
  constructor
  · intro hmin
    refine ⟨P, hPmem, hPmin, ?_⟩
    rw [interpolateRate, ← hS]
    rw [splineAt]
    rw [if_pos (by rw [hxs0]; exact hmin P hPmem)]
    exact hys0
  · intro hmax
    by_cases hfirst : t ≤ (S.map (·.tenor)).getD 0 0
    · have htP : t = P.tenor := le_antisymm (hxs0 ▸ hfirst) (hmax P hPmem)
      refine ⟨P, hPmem, ?_, ?_⟩
      · intro q hq; rw [← htP] at *; exact hmax q hq
      · rw [interpolateRate, ← hS, splineAt, if_pos hfirst]
        exact hys0
    · refine ⟨Q, hQmem, hQmax, ?_⟩
      rw [interpolateRate, ← hS, splineAt, if_neg hfirst]
      rw [if_pos (by rw [hxsn]; exact hmax Q hQmem)]
      exact hysn

/-- Witness for C5 at a concrete two-point curve, below the range. -/
theorem interpolateRate_flat_extrapolation_witness :
    ∃ p ∈ ([⟨1, 2⟩, ⟨3, 4⟩] : List CurvePoint),
      (∀ q ∈ ([⟨1, 2⟩, ⟨3, 4⟩] : List CurvePoint), p.tenor ≤ q.tenor) ∧
        interpolateRate [⟨1, 2⟩, ⟨3, 4⟩] 0 = p.rate :=
  (interpolateRate_flat_extrapolation [⟨1, 2⟩, ⟨3, 4⟩] 0 (by norm_num)).1
    (by rintro p hp; fin_cases hp <;> norm_num)


/-- `(l.set i a).getD i 0 = a` for an in-range index. -/
theorem getD_set_self (l : List ℝ) (i : ℕ) (a : ℝ) (h : i < l.length) :
    (l.set i a).getD i 0 = a := by
  rw [List.getD_eq_getElem?_getD, List.getElem?_set_self h]
  rfl

/-- `List.set` leaves other positions unchanged under `getD`. -/
theorem getD_set_ne (l : List ℝ) (i j : ℕ) (a : ℝ) (h : i ≠ j) :
    (l.set i a).getD j 0 = l.getD j 0 := by
  rw [List.getD_eq_getElem?_getD, List.getElem?_set_ne h, ← List.getD_eq_getElem?_getD]

/-- The secants of the concrete curve used to test the tangent fix. -/
theorem secants_example : secants [0, 1, 2] [0, 10, 9] = [10, -1] := by
  simp [secants, List.range_succ]
  norm_num

/-- The raw tangents of the concrete curve used to test the tangent fix. -/
theorem rawTangents_example : rawTangents [0, 1, 2] [0, 10, 9] = [10, 9 / 2, -1] := by
  simp [rawTangents, secants_example, List.range_succ]
  norm_num

/-- On interval 0 of the example, `hypot(1, 9/20) ≤ 3`. -/
theorem jsHypot_example_le : jsHypot 1 (9 / 20) ≤ 3 := by
  rw [jsHypot]
  exact Real.sqrt_le_iff.mpr ⟨by norm_num, by norm_num⟩

/-- On interval 1 of the example, `hypot(-9/2, 1) > 3`. -/
theorem jsHypot_example_gt : 3 < jsHypot (-(9 / 2)) 1 := by
  rw [jsHypot]
  have h : ((-(9 / 2) : ℝ)) ^ 2 + 1 ^ 2 = 85 / 4 := by norm_num
  rw [h]
  exact (Real.lt_sqrt (by norm_num)).mpr (by norm_num)

/-- Pass 0 of the fixing loop leaves the example tangents unchanged. -/
theorem fixPass_example_0 : fixPass [10, -1] [10, 9 / 2, -1] 0 = [10, 9 / 2, -1] := by
  rw [fixPass]
  rw [if_neg (by norm_num : ¬ (List.getD [(10 : ℝ), -1] 0 0 = 0))]
  simp only [List.getD_cons_zero, List.getD_cons_succ]
  rw [if_neg (by norm_num : ¬ ((10 : ℝ) / 10 < 0))]
  rw [if_neg (by norm_num : ¬ ((9 / 2 : ℝ) / 10 < 0))]
  rw [if_neg]
  push_neg
  have h : ((10 : ℝ) / 10) = 1 := by norm_num
  have h2 : ((9 / 2 : ℝ) / 10) = 9 / 20 := by norm_num
  rw [h, h2]
  exact jsHypot_example_le

/-- The example tangents are still the raw ones when interval 1 is
processed. -/
theorem fixTangents_example_1 :
    fixTangents (secants [0, 1, 2] [0, 10, 9]) (rawTangents [0, 1, 2] [0, 10, 9]) 1
      = [10, 9 / 2, -1] := by
  show fixPass _ (fixTangents _ _ 0) 0 = _
  show fixPass _ (rawTangents [0, 1, 2] [0, 10, 9]) 0 = _
  rw [secants_example, rawTangents_example, fixPass_example_0]

/-- C6 counterexample: on the curve `xs = [0,1,2]`, `ys = [0,10,9]`,
interval 1 is processed with `alpha = -9/2 < 0` and `hypot(alpha,beta) > 3`.
The claim says the negative `alpha` clamps tangent 1 to zero (and a
rescale of a zero tangent by the factor `3/hypot` leaves it zero), so the
final tangent at node 1 would be zero; the code instead overwrites it
with `alpha·(3/hypot)·m = 27/(2·hypot) ≠ 0`, the rescaled pre-clamp
value. -/
theorem monotonicity_fix_clamp_counterexample :
    (fixTangents (secants [0, 1, 2] [0, 10, 9]) (rawTangents [0, 1, 2] [0, 10, 9]) 1).getD 1 0 /
        (secants [0, 1, 2] [0, 10, 9]).getD 1 0 < 0
    ∧ 3 < jsHypot
        ((fixTangents (secants [0, 1, 2] [0, 10, 9])
            (rawTangents [0, 1, 2] [0, 10, 9]) 1).getD 1 0 /
          (secants [0, 1, 2] [0, 10, 9]).getD 1 0)
        ((fixTangents (secants [0, 1, 2] [0, 10, 9])
            (rawTangents [0, 1, 2] [0, 10, 9]) 1).getD 2 0 /
          (secants [0, 1, 2] [0, 10, 9]).getD 1 0)
    ∧ (splineKs [0, 1, 2] [0, 10, 9]).getD 1 0 ≠ 0 := by
  have hargs1 : (fixTangents (secants [0, 1, 2] [0, 10, 9])
      (rawTangents [0, 1, 2] [0, 10, 9]) 1).getD 1 0 /
        (secants [0, 1, 2] [0, 10, 9]).getD 1 0 = -(9 / 2) := by
    rw [fixTangents_example_1, secants_example]
    norm_num
  have hargs2 : (fixTangents (secants [0, 1, 2] [0, 10, 9])
      (rawTangents [0, 1, 2] [0, 10, 9]) 1).getD 2 0 /
        (secants [0, 1, 2] [0, 10, 9]).getD 1 0 = 1 := by
    rw [fixTangents_example_1, secants_example]
    norm_num
  refine ⟨by rw [hargs1]; norm_num, by rw [hargs1, hargs2]; exact jsHypot_example_gt, ?_⟩
  have hsk : splineKs [0, 1, 2] [0, 10, 9] =
      fixPass [10, -1] [10, 9 / 2, -1] 1 := by
    show fixTangents _ _ (List.length [(0 : ℝ), 1, 2] - 1) = _
    have h3 : List.length [(0 : ℝ), 1, 2] - 1 = 2 := by simp
    rw [h3]
    show fixPass _ (fixTangents _ _ 1) 1 = _
    rw [fixTangents_example_1, secants_example]
  rw [hsk, fixPass]
  rw [if_neg (by norm_num : ¬ (List.getD [(10 : ℝ), -1] 1 0 = 0))]
  simp only [List.getD_cons_zero, List.getD_cons_succ]
  rw [if_pos (by norm_num : ((9 / 2 : ℝ) / (-1)) < 0)]
  rw [if_neg (by norm_num : ¬ (((-1 : ℝ)) / (-1) < 0))]
  have hcond : 3 < jsHypot ((9 / 2 : ℝ) / (-1)) ((-1 : ℝ) / (-1)) := by
    have e1 : ((9 / 2 : ℝ) / (-1)) = -(9 / 2) := by norm_num
    have e2 : ((-1 : ℝ) / (-1)) = 1 := by norm_num
    rw [e1, e2]
    exact jsHypot_example_gt
  rw [if_pos hcond]
  set h := jsHypot ((9 / 2 : ℝ) / (-1)) ((-1 : ℝ) / (-1)) with hdef
  have hpos : 0 < h := lt_trans (by norm_num) hcond
  have hval : (((([10, 9 / 2, -1] : List ℝ).set 1 0).set 1
      ((9 / 2) / (-1) * (3 / h) * (-1))).set 2 ((-1) / (-1) * (3 / h) * (-1))).getD 1 0 =
      (9 / 2) / (-1) * (3 / h) * (-1) := by
    rw [getD_set_ne _ 2 1 _ (by norm_num)]
    exact getD_set_self _ 1 _ (by simp)
  rw [hval]
  have hv : (9 / 2 : ℝ) / (-1) * (3 / h) * (-1) = 27 / 2 * h⁻¹ := by ring
  rw [hv]
  positivity


/-- C6 (amended): one pass of the monotonicity correction, for interval
`i`, behaves as follows.  If the secant `m_i` is exactly zero, both
endpoint tangents of the interval become zero.  Otherwise, with
`alpha = k_i/m_i` and `beta = k_{i+1}/m_i` computed from the tangents as
they stand when the interval is processed: when `hypot(alpha,beta) ≤ 3`,
a negative `alpha` (resp. `beta`) clamps the corresponding tangent to
zero and otherwise the tangent is unchanged; when `hypot(alpha,beta) > 3`
both tangents are overwritten with `alpha·(3/hypot)·m_i` and
`beta·(3/hypot)·m_i` computed from the PRE-CLAMP `alpha` and `beta`, so
the rescale overrides a negativity clamp instead of rescaling the zero.
Other tangents are untouched, and the loop applies the passes in interval
order. -/
theorem fixPass_characterization (ms ks : List ℝ) (i : ℕ) (hi : i + 1 < ks.length) :
    (fixTangents ms ks (i + 1) = fixPass ms (fixTangents ms ks i) i)
    ∧ (ms.getD i 0 = 0 →
        (fixPass ms ks i).getD i 0 = 0 ∧ (fixPass ms ks i).getD (i + 1) 0 = 0)
    ∧ (ms.getD i 0 ≠ 0 →
        ((fixPass ms ks i).getD i 0 =
          if 3 < jsHypot (ks.getD i 0 / ms.getD i 0) (ks.getD (i + 1) 0 / ms.getD i 0)
            then ks.getD i 0 / ms.getD i 0 *
              (3 / jsHypot (ks.getD i 0 / ms.getD i 0) (ks.getD (i + 1) 0 / ms.getD i 0)) *
              ms.getD i 0
            else if ks.getD i 0 / ms.getD i 0 < 0 then 0 else ks.getD i 0)
        ∧ ((fixPass ms ks i).getD (i + 1) 0 =
          if 3 < jsHypot (ks.getD i 0 / ms.getD i 0) (ks.getD (i + 1) 0 / ms.getD i 0)
            then ks.getD (i + 1) 0 / ms.getD i 0 *
              (3 / jsHypot (ks.getD i 0 / ms.getD i 0) (ks.getD (i + 1) 0 / ms.getD i 0)) *
              ms.getD i 0
            else if ks.getD (i + 1) 0 / ms.getD i 0 < 0 then 0
              else ks.getD (i + 1) 0))
    ∧ (∀ j, j ≠ i → j ≠ i + 1 → (fixPass ms ks i).getD j 0 = ks.getD j 0) := by
  have hii : i < ks.length := by omega
  refine ⟨rfl, ?_, ?_, ?_⟩
  · intro hm
    simp only [fixPass, if_pos hm]
    refine ⟨?_, ?_⟩
    · rw [getD_set_ne _ (i + 1) i _ (by omega), getD_set_self _ i _ hii]
    · rw [getD_set_self _ (i + 1) _ (by simpa using hi)]
  · intro hm
    simp only [fixPass, if_neg hm]
    by_cases ha : ks.getD i 0 / ms.getD i 0 < 0
    · by_cases hb : ks.getD (i + 1) 0 / ms.getD i 0 < 0
      · by_cases hh : 3 < jsHypot (ks.getD i 0 / ms.getD i 0)
            (ks.getD (i + 1) 0 / ms.getD i 0)
        · simp only [if_pos ha, if_pos hb, if_pos hh]
          refine ⟨?_, ?_⟩
          · rw [getD_set_ne _ (i + 1) i _ (by omega), getD_set_self _ i _ (by simpa using hii)]
          · rw [getD_set_self _ (i + 1) _ (by simpa using hi)]
        · simp only [if_pos ha, if_pos hb, if_neg hh]
          refine ⟨?_, ?_⟩
          · rw [getD_set_ne _ (i + 1) i _ (by omega), getD_set_self _ i _ hii]
          · rw [getD_set_self _ (i + 1) _ (by simpa using hi)]
      · by_cases hh : 3 < jsHypot (ks.getD i 0 / ms.getD i 0)
            (ks.getD (i + 1) 0 / ms.getD i 0)
        · simp only [if_pos ha, if_neg hb, if_pos hh]
          refine ⟨?_, ?_⟩
          · rw [getD_set_ne _ (i + 1) i _ (by omega), getD_set_self _ i _ (by simpa using hii)]
          · rw [getD_set_self _ (i + 1) _ (by simpa using hi)]
        · simp only [if_pos ha, if_neg hb, if_neg hh]
          refine ⟨?_, ?_⟩
          · rw [getD_set_self _ i _ hii]
          · rw [getD_set_ne _ i (i + 1) _ (by omega)]
    · by_cases hb : ks.getD (i + 1) 0 / ms.getD i 0 < 0
      · by_cases hh : 3 < jsHypot (ks.getD i 0 / ms.getD i 0)
            (ks.getD (i + 1) 0 / ms.getD i 0)
        · simp only [if_neg ha, if_pos hb, if_pos hh]
          refine ⟨?_, ?_⟩
          · rw [getD_set_ne _ (i + 1) i _ (by omega), getD_set_self _ i _ (by simpa using hii)]
          · rw [getD_set_self _ (i + 1) _ (by simpa using hi)]
        · simp only [if_neg ha, if_pos hb, if_neg hh]
          refine ⟨?_, ?_⟩
          · rw [getD_set_ne _ (i + 1) i _ (by omega)]
          · rw [getD_set_self _ (i + 1) _ (by simpa using hi)]
      · by_cases hh : 3 < jsHypot (ks.getD i 0 / ms.getD i 0)
            (ks.getD (i + 1) 0 / ms.getD i 0)
        · simp only [if_neg ha, if_neg hb, if_pos hh]
          refine ⟨?_, ?_⟩
          · rw [getD_set_ne _ (i + 1) i _ (by omega), getD_set_self _ i _ hii]
          · rw [getD_set_self _ (i + 1) _ (by simpa using hi)]
        · simp only [if_neg ha, if_neg hb, if_neg hh]
          exact ⟨trivial, trivial⟩
  · intro j hj1 hj2
    simp only [fixPass]
    by_cases hm : ms.getD i 0 = 0
    · simp only [if_pos hm]
      rw [getD_set_ne _ (i + 1) j _ (by omega), getD_set_ne _ i j _ (by omega)]
    · simp only [if_neg hm]
      split_ifs <;> ((repeat rw [getD_set_ne _ _ j _ (by omega)]); try rfl)

/-- Witness for the amended C6 at a concrete tangent state. -/
theorem fixPass_characterization_witness :
    fixTangents [10, -1] [10, 9 / 2, -1] (1 + 1)
      = fixPass [10, -1] (fixTangents [10, -1] [10, 9 / 2, -1] 1) 1 :=
  (fixPass_characterization [10, -1] [10, 9 / 2, -1] 1 (by norm_num)).1


/-- A fixing pass preserves the tangent-list length. -/
theorem fixPass_length (ms ks : List ℝ) (i : ℕ) :
    (fixPass ms ks i).length = ks.length := by
  simp only [fixPass]
  split_ifs <;> simp

/-- The fixing loop preserves the tangent-list length. -/
theorem fixTangents_length (ms ks : List ℝ) (s : ℕ) :
    (fixTangents ms ks s).length = ks.length := by
  induction s with
  | zero => rfl
  | succ s ih => rw [fixTangents, fixPass_length, ih]

/-- With non-negative secants and tangents, a fixing pass keeps every
tangent non-negative and never increases it. -/
theorem fixPass_shrink (ms ks : List ℝ) (i : ℕ)
    (hm : 0 ≤ ms.getD i 0) (hks : ∀ j, 0 ≤ ks.getD j 0) (j : ℕ) :
    0 ≤ (fixPass ms ks i).getD j 0 ∧ (fixPass ms ks i).getD j 0 ≤ ks.getD j 0 := by
  by_cases hjlen : ks.length ≤ j
  · rw [List.getD_eq_default _ _ (by rw [fixPass_length]; exact hjlen),
      List.getD_eq_default _ _ hjlen]
    exact ⟨le_refl 0, le_refl 0⟩
  push_neg at hjlen
  simp only [fixPass]
  by_cases hm0 : ms.getD i 0 = 0
  · simp only [if_pos hm0]
    by_cases hj2 : j = i + 1
    · subst hj2
      rw [getD_set_self _ (i + 1) _ (by simpa using hjlen)]
      exact ⟨le_refl 0, hks _⟩
    · rw [getD_set_ne _ (i + 1) j _ (Ne.symm hj2)]
      by_cases hj1 : j = i
      · subst hj1
        rw [getD_set_self _ j _ hjlen]
        exact ⟨le_refl 0, hks _⟩
      · rw [getD_set_ne _ i j _ (Ne.symm hj1)]
        exact ⟨hks _, le_refl _⟩
  · have hmpos : 0 < ms.getD i 0 := lt_of_le_of_ne hm (Ne.symm hm0)
    have halpha : 0 ≤ ks.getD i 0 / ms.getD i 0 := div_nonneg (hks _) hm
    have hbeta : 0 ≤ ks.getD (i + 1) 0 / ms.getD i 0 := div_nonneg (hks _) hm
    simp only [if_neg hm0, if_neg (not_lt.mpr halpha), if_neg (not_lt.mpr hbeta)]
    by_cases hh : 3 < jsHypot (ks.getD i 0 / ms.getD i 0) (ks.getD (i + 1) 0 / ms.getD i 0)
    · simp only [if_pos hh]
      have hhpos : (0 : ℝ) < jsHypot (ks.getD i 0 / ms.getD i 0)
          (ks.getD (i + 1) 0 / ms.getD i 0) := lt_trans (by norm_num) hh
      have hfrac0 : (0 : ℝ) ≤ 3 / jsHypot (ks.getD i 0 / ms.getD i 0)
          (ks.getD (i + 1) 0 / ms.getD i 0) := by positivity
      have hfrac1 : 3 / jsHypot (ks.getD i 0 / ms.getD i 0)
          (ks.getD (i + 1) 0 / ms.getD i 0) ≤ 1 := by
        rw [div_le_one hhpos]
        exact le_of_lt hh
      have hXval : ∀ c : ℝ, 0 ≤ c →
          0 ≤ c / ms.getD i 0 * (3 / jsHypot (ks.getD i 0 / ms.getD i 0)
              (ks.getD (i + 1) 0 / ms.getD i 0)) * ms.getD i 0
          ∧ c / ms.getD i 0 * (3 / jsHypot (ks.getD i 0 / ms.getD i 0)
              (ks.getD (i + 1) 0 / ms.getD i 0)) * ms.getD i 0 ≤ c := by
        intro c hc
        have hrw : c / ms.getD i 0 * (3 / jsHypot (ks.getD i 0 / ms.getD i 0)
            (ks.getD (i + 1) 0 / ms.getD i 0)) * ms.getD i 0 =
            c * (3 / jsHypot (ks.getD i 0 / ms.getD i 0)
              (ks.getD (i + 1) 0 / ms.getD i 0)) := by
          have hcm : c / ms.getD i 0 * ms.getD i 0 = c := div_mul_cancel₀ c hm0
          calc c / ms.getD i 0 * (3 / jsHypot (ks.getD i 0 / ms.getD i 0)
              (ks.getD (i + 1) 0 / ms.getD i 0)) * ms.getD i 0
              = (c / ms.getD i 0 * ms.getD i 0) * (3 / jsHypot (ks.getD i 0 / ms.getD i 0)
                (ks.getD (i + 1) 0 / ms.getD i 0)) := by ring
          _ = c * (3 / jsHypot (ks.getD i 0 / ms.getD i 0)
                (ks.getD (i + 1) 0 / ms.getD i 0)) := by rw [hcm]
        rw [hrw]
        constructor
        · exact mul_nonneg hc hfrac0
        · calc c * (3 / jsHypot (ks.getD i 0 / ms.getD i 0)
              (ks.getD (i + 1) 0 / ms.getD i 0)) ≤ c * 1 :=
                mul_le_mul_of_nonneg_left hfrac1 hc
          _ = c := mul_one c
      by_cases hj2 : j = i + 1
      · subst hj2
        rw [getD_set_self _ (i + 1) _ (by simpa using hjlen)]
        exact hXval _ (hks _)
      · rw [getD_set_ne _ (i + 1) j _ (Ne.symm hj2)]
        by_cases hj1 : j = i
        · subst hj1
          rw [getD_set_self _ j _ (by simpa using hjlen)]
          exact hXval _ (hks _)
        · rw [getD_set_ne _ i j _ (Ne.symm hj1)]
          exact ⟨hks _, le_refl _⟩
    · simp only [if_neg hh]
      exact ⟨hks _, le_refl _⟩



/-- With non-negative secants and initial tangents, every stage of the
fixing loop keeps all tangents non-negative. -/
theorem fixTangents_nonneg (ms ks : List ℝ)
    (hms : ∀ j, 0 ≤ ms.getD j 0) (hks : ∀ j, 0 ≤ ks.getD j 0) :
    ∀ s j, 0 ≤ (fixTangents ms ks s).getD j 0 := by
  intro s
  induction s with
  | zero => exact hks
  | succ s ih =>
    intro j
    exact (fixPass_shrink ms (fixTangents ms ks s) s (hms s) ih j).1

/-- Later stages of the fixing loop only shrink tangents. -/
theorem fixTangents_anti (ms ks : List ℝ)
    (hms : ∀ j, 0 ≤ ms.getD j 0) (hks : ∀ j, 0 ≤ ks.getD j 0) :
    ∀ s s' j, s ≤ s' →
      (fixTangents ms ks s').getD j 0 ≤ (fixTangents ms ks s).getD j 0 := by
  intro s s'
  induction s' with
  | zero =>
    intro j hs
    have : s = 0 := Nat.le_zero.mp hs
    subst this
    exact le_refl _
  | succ s' ih =>
    intro j hs
    rcases Nat.lt_or_ge s (s' + 1) with hlt | hge
    · have hstep := (fixPass_shrink ms (fixTangents ms ks s') s' (hms s')
        (fixTangents_nonneg ms ks hms hks s') j).2
      exact le_trans hstep (ih j (by omega))
    · have : s = s' + 1 := by omega
      subst this
      exact le_refl _

/-- After its own pass, an interval's tangents lie below three times its
secant (the Fritsch–Carlson box condition times the secant). -/
theorem fixPass_establishes (ms ks : List ℝ) (i : ℕ)
    (hi : i + 1 < ks.length)
    (hm : 0 ≤ ms.getD i 0) (hks : ∀ j, 0 ≤ ks.getD j 0) :
    (fixPass ms ks i).getD i 0 ≤ 3 * ms.getD i 0
    ∧ (fixPass ms ks i).getD (i + 1) 0 ≤ 3 * ms.getD i 0 := by
  have hii : i < ks.length := by omega
  simp only [fixPass]
  by_cases hm0 : ms.getD i 0 = 0
  · simp only [if_pos hm0]
    rw [getD_set_self _ (i + 1) _ (by simpa using hi),
      getD_set_ne _ (i + 1) i _ (by omega), getD_set_self _ i _ hii, hm0]
    norm_num
  · have hmpos : 0 < ms.getD i 0 := lt_of_le_of_ne hm (Ne.symm hm0)
    have halpha : 0 ≤ ks.getD i 0 / ms.getD i 0 := div_nonneg (hks _) hm
    have hbeta : 0 ≤ ks.getD (i + 1) 0 / ms.getD i 0 := div_nonneg (hks _) hm
    have halphah : ks.getD i 0 / ms.getD i 0 ≤ jsHypot (ks.getD i 0 / ms.getD i 0)
        (ks.getD (i + 1) 0 / ms.getD i 0) := by
      rw [jsHypot, Real.le_sqrt halpha (by positivity)]
      nlinarith [sq_nonneg (ks.getD (i + 1) 0 / ms.getD i 0)]
    have hbetah : ks.getD (i + 1) 0 / ms.getD i 0 ≤ jsHypot (ks.getD i 0 / ms.getD i 0)
        (ks.getD (i + 1) 0 / ms.getD i 0) := by
      rw [jsHypot, Real.le_sqrt hbeta (by positivity)]
      nlinarith [sq_nonneg (ks.getD i 0 / ms.getD i 0)]
    simp only [if_neg hm0, if_neg (not_lt.mpr halpha), if_neg (not_lt.mpr hbeta)]
    by_cases hh : 3 < jsHypot (ks.getD i 0 / ms.getD i 0) (ks.getD (i + 1) 0 / ms.getD i 0)
    · simp only [if_pos hh]
      have hhpos : (0 : ℝ) < jsHypot (ks.getD i 0 / ms.getD i 0)
          (ks.getD (i + 1) 0 / ms.getD i 0) := lt_trans (by norm_num) hh
      rw [getD_set_self _ (i + 1) _ (by simpa using hi),
        getD_set_ne _ (i + 1) i _ (by omega), getD_set_self _ i _ hii]
      have hc1 : ks.getD i 0 / ms.getD i 0 * (3 / jsHypot (ks.getD i 0 / ms.getD i 0)
          (ks.getD (i + 1) 0 / ms.getD i 0)) ≤ 3 := by
        rw [mul_div_assoc', div_le_iff₀ hhpos]
        linarith [halphah]
      have hc2 : ks.getD (i + 1) 0 / ms.getD i 0 * (3 / jsHypot (ks.getD i 0 / ms.getD i 0)
          (ks.getD (i + 1) 0 / ms.getD i 0)) ≤ 3 := by
        rw [mul_div_assoc', div_le_iff₀ hhpos]
        linarith [hbetah]
      exact ⟨mul_le_mul_of_nonneg_right hc1 hm, mul_le_mul_of_nonneg_right hc2 hm⟩
    · simp only [if_neg hh]
      push_neg at hh
      have he1 : ks.getD i 0 = ks.getD i 0 / ms.getD i 0 * ms.getD i 0 :=
        (div_mul_cancel₀ _ hm0).symm
      have he2 : ks.getD (i + 1) 0 = ks.getD (i + 1) 0 / ms.getD i 0 * ms.getD i 0 :=
        (div_mul_cancel₀ _ hm0).symm
      constructor
      · rw [he1]
        exact mul_le_mul_of_nonneg_right (le_trans halphah hh) hm
      · rw [he2]
        exact mul_le_mul_of_nonneg_right (le_trans hbetah hh) hm



/-- `getD` of a function mapped over `List.range`, in range. -/
theorem getD_map_range (f : ℕ → ℝ) (n j : ℕ) (hj : j < n) :
    ((List.range n).map f).getD j 0 = f j := by
  rw [List.getD_eq_getElem _ _ (by simpa using hj), List.getElem_map]
  simp only [List.getElem_range]

/-- `getD` of a function mapped over `List.range`, out of range. -/
theorem getD_map_range_oor (f : ℕ → ℝ) (n j : ℕ) (hj : n ≤ j) :
    ((List.range n).map f).getD j 0 = 0 :=
  List.getD_eq_default _ _ (by simpa using hj)

/-- Sorted tenors and non-decreasing rates give non-negative secants. -/
theorem secants_nonneg (xs ys : List ℝ)
    (hx : ∀ a b, a < b → b < xs.length → xs.getD a 0 < xs.getD b 0)
    (hy : ∀ a b, a < b → b < xs.length → ys.getD a 0 ≤ ys.getD b 0) :
    ∀ j, 0 ≤ (secants xs ys).getD j 0 := by
  intro j
  rw [secants]
  by_cases hj : j < xs.length - 1
  · rw [getD_map_range _ _ _ hj]
    apply div_nonneg
    · exact sub_nonneg.mpr (hy j (j + 1) (by omega) (by omega))
    · exact le_of_lt (sub_pos.mpr (hx j (j + 1) (by omega) (by omega)))
  · rw [getD_map_range_oor _ _ _ (by omega)]

/-- The raw tangent list has one tangent per node. -/
theorem rawTangents_length (xs ys : List ℝ) :
    (rawTangents xs ys).length = xs.length := by
  simp [rawTangents]

/-- Sorted tenors and non-decreasing rates give non-negative raw
tangents. -/
theorem rawTangents_nonneg (xs ys : List ℝ)
    (hx : ∀ a b, a < b → b < xs.length → xs.getD a 0 < xs.getD b 0)
    (hy : ∀ a b, a < b → b < xs.length → ys.getD a 0 ≤ ys.getD b 0) :
    ∀ j, 0 ≤ (rawTangents xs ys).getD j 0 := by
  have hms := secants_nonneg xs ys hx hy
  intro j
  rw [rawTangents]
  by_cases hj : j < xs.length
  · rw [getD_map_range _ _ _ hj]
    split_ifs
    · exact hms 0
    · exact hms _
    · exact div_nonneg (add_nonneg (hms _) (hms _)) (by norm_num)
  · rw [getD_map_range_oor _ _ _ (by omega)]

/-- The corrected tangents of every interval satisfy the box condition
`0 ≤ k ≤ 3·m_i`: the interval's own pass establishes it and later passes
only shrink tangents. -/
theorem splineKs_bounds (xs ys : List ℝ)
    (hx : ∀ a b, a < b → b < xs.length → xs.getD a 0 < xs.getD b 0)
    (hy : ∀ a b, a < b → b < xs.length → ys.getD a 0 ≤ ys.getD b 0) :
    ∀ i, i + 1 < xs.length →
      (0 ≤ (splineKs xs ys).getD i 0
        ∧ (splineKs xs ys).getD i 0 ≤ 3 * (secants xs ys).getD i 0)
      ∧ (0 ≤ (splineKs xs ys).getD (i + 1) 0
        ∧ (splineKs xs ys).getD (i + 1) 0 ≤ 3 * (secants xs ys).getD i 0) := by
  intro i hi
  have hms := secants_nonneg xs ys hx hy
  have hks0 := rawTangents_nonneg xs ys hx hy
  have hsl : (fixTangents (secants xs ys) (rawTangents xs ys) i).length = xs.length := by
    rw [fixTangents_length, rawTangents_length]
  have hnn := fixTangents_nonneg (secants xs ys) (rawTangents xs ys) hms hks0 i
  have hest := fixPass_establishes (secants xs ys)
    (fixTangents (secants xs ys) (rawTangents xs ys) i) i
    (by rw [hsl]; exact hi) (hms i) hnn
  have hstep : fixTangents (secants xs ys) (rawTangents xs ys) (i + 1) =
      fixPass (secants xs ys) (fixTangents (secants xs ys) (rawTangents xs ys) i) i := rfl
  rw [← hstep] at hest
  have hanti := fixTangents_anti (secants xs ys) (rawTangents xs ys) hms hks0
  have hfin1 : (splineKs xs ys).getD i 0 ≤
      (fixTangents (secants xs ys) (rawTangents xs ys) (i + 1)).getD i 0 := by
    rw [splineKs]
    exact hanti (i + 1) (xs.length - 1) i (by omega)
  have hfin2 : (splineKs xs ys).getD (i + 1) 0 ≤
      (fixTangents (secants xs ys) (rawTangents xs ys) (i + 1)).getD (i + 1) 0 := by
    rw [splineKs]
    exact hanti (i + 1) (xs.length - 1) (i + 1) (by omega)
  have hnnfin := fixTangents_nonneg (secants xs ys) (rawTangents xs ys) hms hks0
    (xs.length - 1)
  refine ⟨⟨?_, le_trans hfin1 hest.1⟩, ⟨?_, le_trans hfin2 hest.2⟩⟩
  · rw [splineKs]; exact hnnfin i
  · rw [splineKs]; exact hnnfin (i + 1)



/-- The cubic Hermite value on `[0,1]` stays between its endpoint values
when both scaled tangents lie in `[0, 3·m]` (Fritsch–Carlson box
condition). -/
theorem hermite_between (y0 y1 m k0 k1 h u : ℝ)
    (hh : 0 < h) (hu0 : 0 ≤ u) (hu1 : u ≤ 1) (hy : y0 ≤ y1)
    (hm : m = (y1 - y0) / h)
    (hk00 : 0 ≤ k0) (hk03 : k0 ≤ 3 * m) (hk10 : 0 ≤ k1) (hk13 : k1 ≤ 3 * m) :
    y0 ≤ (2 * (u * u * u) - 3 * (u * u) + 1) * y0 + ((u * u * u) - 2 * (u * u) + u) * h * k0 +
        (-2 * (u * u * u) + 3 * (u * u)) * y1 + ((u * u * u) - (u * u)) * h * k1
    ∧ (2 * (u * u * u) - 3 * (u * u) + 1) * y0 + ((u * u * u) - 2 * (u * u) + u) * h * k0 +
        (-2 * (u * u * u) + 3 * (u * u)) * y1 + ((u * u * u) - (u * u)) * h * k1 ≤ y1 := by
  have hK0 : 0 ≤ h * k0 := mul_nonneg hh.le hk00
  have hK1 : 0 ≤ h * k1 := mul_nonneg hh.le hk10
  have hK0' : h * k0 ≤ 3 * (y1 - y0) := by
    have := mul_le_mul_of_nonneg_left hk03 hh.le
    rw [hm] at this
    calc h * k0 ≤ h * (3 * ((y1 - y0) / h)) := this
    _ = 3 * (y1 - y0) * (h / h) := by ring
    _ = 3 * (y1 - y0) := by rw [div_self (ne_of_gt hh), mul_one]
  have hK1' : h * k1 ≤ 3 * (y1 - y0) := by
    have := mul_le_mul_of_nonneg_left hk13 hh.le
    rw [hm] at this
    calc h * k1 ≤ h * (3 * ((y1 - y0) / h)) := this
    _ = 3 * (y1 - y0) * (h / h) := by ring
    _ = 3 * (y1 - y0) := by rw [div_self (ne_of_gt hh), mul_one]
  have hd : 0 ≤ y1 - y0 := sub_nonneg.mpr hy
  constructor
  · have t1 : 0 ≤ (y1 - y0) * (u * u * u) :=
      mul_nonneg hd (by positivity)
    have t2 : 0 ≤ u * (1 - u) ^ 2 * (h * k0) :=
      mul_nonneg (mul_nonneg hu0 (sq_nonneg _)) hK0
    have t3 : 0 ≤ u * u * (1 - u) * (3 * (y1 - y0) - h * k1) :=
      mul_nonneg (mul_nonneg (mul_nonneg hu0 hu0) (by linarith)) (by linarith)
    nlinarith [t1, t2, t3]
  · have t1 : 0 ≤ (y1 - y0) * ((1 - u) * (1 - u) * (1 - u)) :=
      mul_nonneg hd (by nlinarith)
    have t2 : 0 ≤ u * (1 - u) ^ 2 * (3 * (y1 - y0) - h * k0) :=
      mul_nonneg (mul_nonneg hu0 (sq_nonneg _)) (by linarith)
    have t3 : 0 ≤ u * u * (1 - u) * (h * k1) :=
      mul_nonneg (mul_nonneg (mul_nonneg hu0 hu0) (by linarith)) hK1
    nlinarith [t1, t2, t3]

/-- The interval search returns the least index in range satisfying the
bracketing condition. -/
theorem findIntervalGo_eq (xs : List ℝ) (x : ℝ) :
    ∀ (fuel j0 i : ℕ), j0 ≤ i → i < j0 + fuel →
      (xs.getD i 0 ≤ x ∧ x ≤ xs.getD (i + 1) 0) →
      (∀ j, j0 ≤ j → j < i → ¬ (xs.getD j 0 ≤ x ∧ x ≤ xs.getD (j + 1) 0)) →
      findIntervalGo xs x fuel j0 = i := by
  intro fuel
  induction fuel with
  | zero => intro j0 i h1 h2; omega
  | succ fuel ih =>
    intro j0 i h1 h2 hP hleast
    rw [findIntervalGo]
    by_cases hP0 : xs.getD j0 0 ≤ x ∧ x ≤ xs.getD (j0 + 1) 0
    · rw [if_pos hP0]
      by_contra hne
      exact hleast j0 (le_refl _) (by omega) hP0
    · rw [if_neg hP0]
      have hij : j0 ≠ i := by
        intro hcontra
        subst hcontra
        exact hP0 hP
      exact ih (j0 + 1) i (by omega) (by omega) hP
        (fun j hj1 hj2 => hleast j (by omega) hj2)


/-- Spline-level no-overshoot: with strictly increasing nodes and
non-decreasing values, the evaluation at any point bracketed by nodes
`i, i+1` stays inside `[y_i, y_{i+1}]`. -/
theorem splineAt_between (xs ys : List ℝ) (t : ℝ) (i : ℕ)
    (hx : ∀ a b, a < b → b < xs.length → xs.getD a 0 < xs.getD b 0)
    (hy : ∀ a b, a < b → b < xs.length → ys.getD a 0 ≤ ys.getD b 0)
    (hi : i + 1 < xs.length)
    (ht1 : xs.getD i 0 ≤ t) (ht2 : t ≤ xs.getD (i + 1) 0) :
    ys.getD i 0 ≤ splineAt xs ys t ∧ splineAt xs ys t ≤ ys.getD (i + 1) 0 := by
  rw [splineAt]
  by_cases h1 : t ≤ xs.getD 0 0
  · rw [if_pos h1]
    have hi0 : i = 0 := by
      by_contra hne
      have h0i : xs.getD 0 0 < xs.getD i 0 := hx 0 i (by omega) (by omega)
      linarith
    subst hi0
    exact ⟨le_refl _, hy 0 1 (by omega) hi⟩
  · rw [if_neg h1]
    push_neg at h1
    by_cases h2 : xs.getD (xs.length - 1) 0 ≤ t
    · rw [if_pos h2]
      have hieq : i + 1 = xs.length - 1 := by
        by_contra hne
        have : xs.getD (i + 1) 0 < xs.getD (xs.length - 1) 0 :=
          hx (i + 1) (xs.length - 1) (by omega) (by omega)
        linarith
      rw [← hieq]
      exact ⟨hy i (i + 1) (by omega) hi, le_refl _⟩
    · rw [if_neg h2]
      push_neg at h2
      rcases eq_or_lt_of_le ht1 with hxi | hxi
      · -- t is exactly the left node: the search lands on interval i - 1
        have hipos : 0 < i := by
          by_contra hne
          push_neg at hne
          have : i = 0 := by omega
          subst this
          exact absurd hxi.symm (ne_of_gt h1)
        obtain ⟨i', rfl⟩ : ∃ i', i = i' + 1 := ⟨i - 1, by omega⟩
        have hfind : findInterval xs t = i' := by
          rw [findInterval]
          apply findIntervalGo_eq xs t (xs.length - 1) 0 i' (by omega) (by omega)
          · constructor
            · have : xs.getD i' 0 < xs.getD (i' + 1) 0 := hx i' (i' + 1) (by omega) (by omega)
              linarith [hxi]
            · exact le_of_eq hxi.symm
          · intro j hj0 hji hPj
            have hj1 : xs.getD (j + 1) 0 ≤ xs.getD i' 0 := by
              rcases Nat.lt_or_ge (j + 1) i' with hlt | hge
              · exact le_of_lt (hx (j + 1) i' hlt (by omega))
              · have : j + 1 = i' := by omega
                subst this
                exact le_refl _
            have : xs.getD i' 0 < xs.getD (i' + 1) 0 := hx i' (i' + 1) (by omega) (by omega)
            have ht := hPj.2
            linarith [hxi]
        rw [hfind]
        set H := xs.getD (i' + 1) 0 - xs.getD i' 0 with hHdef
        have hHpos : 0 < H := sub_pos.mpr (hx i' (i' + 1) (by omega) (by omega))
        have hu : (t - xs.getD i' 0) / H = 1 := by
          rw [← hxi]
          exact div_self (ne_of_gt hHpos)
        have heval : hermite xs ys (splineKs xs ys) i' t =
            (2 * ((t - xs.getD i' 0) / H * ((t - xs.getD i' 0) / H) *
                ((t - xs.getD i' 0) / H)) -
              3 * ((t - xs.getD i' 0) / H * ((t - xs.getD i' 0) / H)) + 1) * ys.getD i' 0 +
            ((t - xs.getD i' 0) / H * ((t - xs.getD i' 0) / H) * ((t - xs.getD i' 0) / H) -
              2 * ((t - xs.getD i' 0) / H * ((t - xs.getD i' 0) / H)) +
              (t - xs.getD i' 0) / H) * H * (splineKs xs ys).getD i' 0 +
            (-2 * ((t - xs.getD i' 0) / H * ((t - xs.getD i' 0) / H) *
                ((t - xs.getD i' 0) / H)) +
              3 * ((t - xs.getD i' 0) / H * ((t - xs.getD i' 0) / H))) * ys.getD (i' + 1) 0 +
            ((t - xs.getD i' 0) / H * ((t - xs.getD i' 0) / H) * ((t - xs.getD i' 0) / H) -
              (t - xs.getD i' 0) / H * ((t - xs.getD i' 0) / H)) * H *
              (splineKs xs ys).getD (i' + 1) 0 := rfl
        rw [heval, hu]
        have hsimp : (2 * ((1 : ℝ) * 1 * 1) - 3 * (1 * 1) + 1) * ys.getD i' 0 +
            ((1 : ℝ) * 1 * 1 - 2 * (1 * 1) + 1) * H * (splineKs xs ys).getD i' 0 +
            (-2 * ((1 : ℝ) * 1 * 1) + 3 * (1 * 1)) * ys.getD (i' + 1) 0 +
            ((1 : ℝ) * 1 * 1 - 1 * 1) * H * (splineKs xs ys).getD (i' + 1) 0 =
            ys.getD (i' + 1) 0 := by ring
        rw [hsimp]
        exact ⟨le_refl _, hy (i' + 1) (i' + 1 + 1) (by omega) hi⟩
      · -- the left node is strictly below t: the search lands on interval i
        have hfind : findInterval xs t = i := by
          rw [findInterval]
          apply findIntervalGo_eq xs t (xs.length - 1) 0 i (by omega) (by omega)
          · exact ⟨ht1, ht2⟩
          · intro j hj0 hji hPj
            have hj1 : xs.getD (j + 1) 0 ≤ xs.getD i 0 := by
              rcases Nat.lt_or_ge (j + 1) i with hlt | hge
              · exact le_of_lt (hx (j + 1) i hlt (by omega))
              · have : j + 1 = i := by omega
                subst this
                exact le_refl _
            linarith [hPj.2]
        rw [hfind]
        set H := xs.getD (i + 1) 0 - xs.getD i 0 with hHdef
        have hHpos : 0 < H := sub_pos.mpr (hx i (i + 1) (by omega) (by omega))
        have hu0 : 0 ≤ (t - xs.getD i 0) / H := div_nonneg (by linarith) hHpos.le
        have hu1 : (t - xs.getD i 0) / H ≤ 1 := by
          rw [div_le_one hHpos]
          linarith
        have hsec : (secants xs ys).getD i 0 =
            (ys.getD (i + 1) 0 - ys.getD i 0) / H := by
          rw [secants, getD_map_range _ _ _ (by omega)]
        have hks := splineKs_bounds xs ys hx hy i hi
        have hb := hermite_between (ys.getD i 0) (ys.getD (i + 1) 0)
          ((secants xs ys).getD i 0) ((splineKs xs ys).getD i 0)
          ((splineKs xs ys).getD (i + 1) 0) H ((t - xs.getD i 0) / H)
          hHpos hu0 hu1 (hy i (i + 1) (by omega) hi) hsec
          hks.1.1 hks.1.2 hks.2.1 hks.2.2
        have heval : hermite xs ys (splineKs xs ys) i t =
            (2 * ((t - xs.getD i 0) / H * ((t - xs.getD i 0) / H) *
                ((t - xs.getD i 0) / H)) -
              3 * ((t - xs.getD i 0) / H * ((t - xs.getD i 0) / H)) + 1) * ys.getD i 0 +
            ((t - xs.getD i 0) / H * ((t - xs.getD i 0) / H) * ((t - xs.getD i 0) / H) -
              2 * ((t - xs.getD i 0) / H * ((t - xs.getD i 0) / H)) +
              (t - xs.getD i 0) / H) * H * (splineKs xs ys).getD i 0 +
            (-2 * ((t - xs.getD i 0) / H * ((t - xs.getD i 0) / H) *
                ((t - xs.getD i 0) / H)) +
              3 * ((t - xs.getD i 0) / H * ((t - xs.getD i 0) / H))) * ys.getD (i + 1) 0 +
            ((t - xs.getD i 0) / H * ((t - xs.getD i 0) / H) * ((t - xs.getD i 0) / H) -
              (t - xs.getD i 0) / H * ((t - xs.getD i 0) / H)) * H *
              (splineKs xs ys).getD (i + 1) 0 := rfl
        rw [heval]
        exact hb


/-- C7: for a curve with strictly increasing tenors and monotonically
non-decreasing rates, the interpolated value at any `t` between the
adjacent nodes `i` and `i+1` lies within
`[min(y_i, y_{i+1}), max(y_i, y_{i+1})]` (no overshoot). -/
theorem interpolateRate_no_overshoot (curve : List CurvePoint) (i : ℕ) (t : ℝ)
    (hsorted : curve.Pairwise fun a b => a.tenor < b.tenor)
    (hmono : curve.Pairwise fun a b => a.rate ≤ b.rate)
    (hi : i + 1 < curve.length)
    (ht1 : (curve.getD i ⟨0, 0⟩).tenor ≤ t)
    (ht2 : t ≤ (curve.getD (i + 1) ⟨0, 0⟩).tenor) :
    min (curve.getD i ⟨0, 0⟩).rate (curve.getD (i + 1) ⟨0, 0⟩).rate ≤ interpolateRate curve t
    ∧ interpolateRate curve t ≤
        max (curve.getD i ⟨0, 0⟩).rate (curve.getD (i + 1) ⟨0, 0⟩).rate := by
  have hsortid : sortCurve curve = curve := sortCurve_eq_self (hsorted.imp le_of_lt)
  have hxlen : (curve.map (·.tenor)).length = curve.length := List.length_map _ _
  have hylen : (curve.map (·.rate)).length = curve.length := List.length_map _ _
  have hgetx : ∀ a, a < curve.length →
      (curve.map (·.tenor)).getD a 0 = (curve.getD a ⟨0, 0⟩).tenor := by
    intro a ha
    rw [List.getD_eq_getElem _ _ (by omega : a < (curve.map (·.tenor)).length),
      List.getElem_map, List.getD_eq_getElem _ _ ha]
  have hgety : ∀ a, a < curve.length →
      (curve.map (·.rate)).getD a 0 = (curve.getD a ⟨0, 0⟩).rate := by
    intro a ha
    rw [List.getD_eq_getElem _ _ (by omega : a < (curve.map (·.rate)).length),
      List.getElem_map, List.getD_eq_getElem _ _ ha]
  have hx : ∀ a b, a < b → b < (curve.map (·.tenor)).length →
      (curve.map (·.tenor)).getD a 0 < (curve.map (·.tenor)).getD b 0 := by
    intro a b hab hb
    rw [hxlen] at hb
    rw [hgetx a (by omega), hgetx b hb,
      List.getD_eq_getElem _ _ (by omega : a < curve.length),
      List.getD_eq_getElem _ _ hb]
    exact List.pairwise_iff_getElem.mp hsorted a b (by omega) hb hab
  have hy : ∀ a b, a < b → b < (curve.map (·.tenor)).length →
      (curve.map (·.rate)).getD a 0 ≤ (curve.map (·.rate)).getD b 0 := by
    intro a b hab hb
    rw [hxlen] at hb
    rw [hgety a (by omega), hgety b hb,
      List.getD_eq_getElem _ _ (by omega : a < curve.length),
      List.getD_eq_getElem _ _ hb]
    exact List.pairwise_iff_getElem.mp hmono a b (by omega) hb hab
  have hmain := splineAt_between (curve.map (·.tenor)) (curve.map (·.rate)) t i hx hy
    (by rw [hxlen]; exact hi)
    (by rw [hgetx i (by omega)]; exact ht1)
    (by rw [hgetx (i + 1) hi]; exact ht2)
  rw [hgety i (by omega), hgety (i + 1) hi] at hmain
  have hri : (curve.getD i ⟨0, 0⟩).rate ≤ (curve.getD (i + 1) ⟨0, 0⟩).rate := by
    rw [List.getD_eq_getElem _ _ (by omega : i < curve.length),
      List.getD_eq_getElem _ _ hi]
    exact List.pairwise_iff_getElem.mp hmono i (i + 1) (by omega) hi (by omega)
  have hRate : interpolateRate curve t =
      splineAt (curve.map (·.tenor)) (curve.map (·.rate)) t := by
    rw [interpolateRate, hsortid]
  rw [hRate, min_eq_left hri, max_eq_right hri]
  exact hmain


/-- Witness for C7 at a concrete curve and interior point. -/
theorem interpolateRate_no_overshoot_witness :
    min (([⟨1, 2⟩, ⟨3, 4⟩] : List CurvePoint).getD 0 ⟨0, 0⟩).rate
        (([⟨1, 2⟩, ⟨3, 4⟩] : List CurvePoint).getD 1 ⟨0, 0⟩).rate ≤
      interpolateRate [⟨1, 2⟩, ⟨3, 4⟩] 2
    ∧ interpolateRate [⟨1, 2⟩, ⟨3, 4⟩] 2 ≤
      max (([⟨1, 2⟩, ⟨3, 4⟩] : List CurvePoint).getD 0 ⟨0, 0⟩).rate
        (([⟨1, 2⟩, ⟨3, 4⟩] : List CurvePoint).getD 1 ⟨0, 0⟩).rate :=
  interpolateRate_no_overshoot [⟨1, 2⟩, ⟨3, 4⟩] 0 2
    (by norm_num [List.pairwise_cons]) (by norm_num [List.pairwise_cons])
    (by norm_num) (by norm_num) (by norm_num)

end BondMath
